import Mathlib

/-!
Verification development for `multifit/datasets/create_twittertext.py`.

The script is embedded shallowly: strings are lists of characters, the six
regular-expression substitutions of `clean_line_mod` are implemented as
left-to-right scanners that, at each position, attempt the (backtracking-free)
greedy match of the corresponding pattern, the Moses tokenizer is an opaque
function parameter `tok`, and the budgeted writer `write_tweettext` is a pure
fold over the list of texts that returns the written lines, the running token
total, the final value of the enumerate index `i`, and the unconsumed suffix
of the source sequence.

Character classes: Python's `\w`, `\s` and `str.isalpha` are Unicode-aware;
they are modelled by their ASCII restrictions (`Char.isAlphanum || '_'`,
`Char.isWhitespace`, `Char.isAlpha`), which agree with them on all inputs used
in the concrete theorems below.
-/

/-- Python's `\w` character class (ASCII fragment): letters, digits, underscore. -/
def isWordChar (c : Char) : Bool := c.isAlphanum || c = '_'

/-- The single-character alternatives of `url_regex`'s repeated group:
`[a-zA-Z]`, `[0-9]`, `[$-_@.&+]` (the range U+0024..U+005F, which already
contains the digits, the uppercase letters, `@`, `.`, `&`, `+` and `%`),
and `[!*\(\), ]`.  The `%xx` alternative is subsumed because `%` itself lies
in the `$-_` range. -/
def isUrlChar (c : Char) : Bool :=
  (0x24 ≤ c.val && c.val ≤ 0x5F) || ('a' ≤ c && c ≤ 'z') || c = '!' || c = ' '

/-- Python `line.split(' ')`: split on every single space, keeping empty parts. -/
def splitSpaces : List Char → List (List Char)
  | [] => [[]]
  | c :: rest =>
    if c = ' ' then [] :: splitSpaces rest
    else
      match splitSpaces rest with
      | w :: ws => (c :: w) :: ws
      | [] => [[c]]

/-- Python `str.strip()`: remove leading and trailing whitespace. -/
def stripChars (l : List Char) : List Char :=
  ((l.dropWhile Char.isWhitespace).reverse.dropWhile Char.isWhitespace).reverse

/-- Match a literal character sequence at the head of the input, returning the
remainder on success. -/
def dropLit : List Char → List Char → Option (List Char)
  | [], l => some l
  | _ :: _, [] => none
  | p :: ps, c :: cs => if c = p then dropLit ps cs else none

/-- Greedy `takeWhile` capped at `n` characters (for `\w{1,15}`). -/
def takeWhileCap (p : Char → Bool) : Nat → List Char → List Char
  | 0, _ => []
  | _, [] => []
  | n + 1, c :: rest => if p c then c :: takeWhileCap p n rest else []

/-!
Each substitution pass is `scanSub f`, where the matcher
`f : List Char → Option (Nat × List Char)` either rejects the current
position or returns `(n, repl)` meaning: the match covers `n + 1` characters
(every pattern of the script matches at least one character) and is replaced
by `repl`.  `scanSub` scans left to right, exactly like `re.sub`: on a match
it emits the replacement and resumes after the matched characters; otherwise
it copies one character.  It is defined with a structural fuel equal to the
input length so that it computes by `decide`/`rfl`.
-/

def scanSubAux (f : List Char → Option (Nat × List Char)) : Nat → List Char → List Char
  | _, [] => []
  | 0, l => l
  | fuel + 1, c :: rest =>
    match f (c :: rest) with
    | some (n, repl) => repl ++ scanSubAux f fuel (rest.drop n)
    | none => c :: scanSubAux f fuel rest

def scanSub (f : List Char → Option (Nat × List Char)) (l : List Char) : List Char :=
  scanSubAux f l.length l

/-- Matcher for `url_regex = http[s]?://(?:[a-zA-Z]|[0-9]|[$-_@.&+]|[!*\(\), ]|(?:%hh))+`:
the body after `http`/`https` is `://` followed by a nonempty greedy run of
`isUrlChar` characters.  Returns the number of characters consumed. -/
def urlBody (r : List Char) : Option Nat :=
  match dropLit [':', '/', '/'] r with
  | some r2 =>
    let run := r2.takeWhile isUrlChar
    if run = [] then none else some (3 + run.length)
  | none => none

/-- Matcher for the whole URL pattern.  The optional `[s]?` is greedy: with a
leading `s` the body is tried after it first, and only on failure at the
position without it (which, as `urlBody` then needs a `:`, always fails too,
mirroring the regex backtracking). -/
def urlTry (l : List Char) : Option (Nat × List Char) :=
  match dropLit ['h', 't', 't', 'p'] l with
  | none => none
  | some rest =>
    let withS : Option Nat :=
      match rest with
      | c :: rest2 => if c = 's' then (urlBody rest2).map (fun k => k + 1) else none
      | [] => none
    match withS with
    | some k1 => some (3 + k1, [])
    | none =>
      match urlBody rest with
      | some k => some (3 + k, [])
      | none => none

/-- The literal head of `pic_url_regex = pic\.twitter\.com\/\w+`. -/
def picLit : List Char := ['p', 'i', 'c', '.', 't', 'w', 'i', 't', 't', 'e', 'r', '.', 'c', 'o', 'm', '/']

def picTry (l : List Char) : Option (Nat × List Char) :=
  match dropLit picLit l with
  | some r =>
    let w := r.takeWhile isWordChar
    if w = [] then none else some (15 + w.length, [])
  | none => none

/-- Length of the greedy `(\.( *))+` run, assuming the head is `'.'`.
Each iteration consumes one dot and the following run of spaces. -/
def dotRunLenAux : Nat → List Char → Nat
  | 0, _ => 0
  | fuel + 1, l =>
    match l with
    | c :: rest =>
      if c = '.' then
        let sp := rest.takeWhile (fun d => d = ' ')
        1 + sp.length + dotRunLenAux fuel (rest.drop sp.length)
      else 0
    | [] => 0

def dotRunLen (l : List Char) : Nat := dotRunLenAux l.length l

/-- Matcher for `multi_dot_regex = ( *(\.( *))+)`, replaced by `" . "`. -/
def dotTry (l : List Char) : Option (Nat × List Char) :=
  let sp := l.takeWhile (fun d => d = ' ')
  match l.drop sp.length with
  | c :: rest =>
    if c = '.' then some (sp.length + dotRunLen (c :: rest) - 1, [' ', '.', ' '])
    else none
  | [] => none

/-- `clean_mention` from the script: keep the alphabetic characters of the
captured handle and replace every other character by a space. -/
def clean_mention (h : List Char) : List Char :=
  h.map (fun c => if c.isAlpha then c else ' ')

/-- Matcher for `mention_regex = @(\w{1,15})( )*(:)*`, replaced by
`clean_mention` applied to the captured handle. -/
def mentionTry : List Char → Option (Nat × List Char)
  | c :: rest =>
    if c = '@' then
      let h := takeWhileCap isWordChar 15 rest
      if h = [] then none
      else
        let r1 := rest.drop h.length
        let sp := r1.takeWhile (fun d => d = ' ')
        let co := (r1.drop sp.length).takeWhile (fun d => d = ':')
        some (h.length + sp.length + co.length, clean_mention h)
    else none
  | [] => none

/-- Matcher for `hashtag_regex = #\w*[a-zA-Z]+\w*`, replaced by a space:
it matches iff the maximal `\w` run after `#` contains a letter, and then
covers the whole run. -/
def hashtagTry : List Char → Option (Nat × List Char)
  | c :: rest =>
    if c = '#' then
      let w := rest.takeWhile isWordChar
      if w.any Char.isAlpha then some (w.length, [' ']) else none
    else none
  | [] => none

/-- Matcher for `multi_space_regex = (\s+|\n+)`, replaced by a space:
a maximal whitespace run. -/
def spaceTry : List Char → Option (Nat × List Char)
  | c :: rest =>
    if c.isWhitespace then some ((rest.takeWhile Char.isWhitespace).length, [' '])
    else none
  | [] => none

def url_sub (l : List Char) : List Char := scanSub urlTry l
def pic_sub (l : List Char) : List Char := scanSub picTry l
def dot_sub (l : List Char) : List Char := scanSub dotTry l
def mention_sub (l : List Char) : List Char := scanSub mentionTry l
def hashtag_sub (l : List Char) : List Char := scanSub hashtagTry l
def space_sub (l : List Char) : List Char := scanSub spaceTry l

/-- `if line[:3] == 'RT ': line = line[3:]`. -/
def rtStrip (l : List Char) : List Char :=
  if l.take 3 = ['R', 'T', ' '] then l.drop 3 else l

/-- `clean_line_mod` from the script: strip the repost marker, then apply the
six substitutions in source order. -/
def clean_line_mod (l : List Char) : List Char :=
  space_sub (hashtag_sub (mention_sub (dot_sub (pic_sub (url_sub (rtStrip l))))))

/-! ## Tweet text extraction (`get_text_from_tweet`) -/

structure ExtendedTweet where
  full_text : List Char
deriving DecidableEq, Repr

structure RetweetedStatus where
  extended_tweet : Option ExtendedTweet
  text : List Char
deriving DecidableEq, Repr

structure Tweet where
  retweeted_status : Option RetweetedStatus
  extended_tweet : Option ExtendedTweet
  text : List Char
deriving DecidableEq, Repr

def get_text_from_tweet (tw : Tweet) : List Char :=
  match tw.retweeted_status with
  | some rt =>
    match rt.extended_tweet with
    | some et => et.full_text
    | none => rt.text
  | none =>
    match tw.extended_tweet with
    | some et => et.full_text
    | none => tw.text

/-! ## The budgeted writer (`write_tweettext`) -/

/-- The number of non-empty tokens of the written line: the tokenizer output
`mt.tokenize(text.strip(), return_str=True)` is split on single spaces and
empty tokens are dropped. -/
def numTokens (tok : List Char → List Char) (text : List Char) : Nat :=
  ((splitSpaces (tok (stripChars text))).filter (fun t => t ≠ [])).length

/-- `num_tokens_tweet` of the loop body: the non-empty token count plus 1. -/
def accountedTokens (tok : List Char → List Char) (text : List Char) : Nat :=
  numTokens tok text + 1

/-- The acceptance test of the gate: the record is written unless
`num_tokens_tweet < num_tokens_tweet_min`. -/
def acceptsLine (tok : List Char → List Char) (minTok : Nat) (text : List Char) : Bool :=
  decide (minTok ≤ accountedTokens tok text)

/-- Result of one call of `write_tweettext`: the lines written to the file (in
order), the final `total_num_tokens`, the final value of the enumerate index
`i` (reported in the summary line), and the part of the shared source sequence
that was not consumed. -/
structure WriteResult where
  written : List (List Char)
  total : Nat
  lastIndex : Nat
  remaining : List (List Char)
deriving DecidableEq, Repr

/-- The loop of `write_tweettext`.  `idx` is the enumerate index of the next
record, `last` the current value of `i` (the index of the last record drawn,
initially 0), `total` is `total_num_tokens` and `acc` the written lines in
reverse.  A rejected record (`continue`) is skipped without writing or
counting; an accepted record is written, then `num_tokens_tweet + 1` is added
to the total, and with a non-`None` budget the loop breaks as soon as the
total exceeds it. -/
def writeLoop (tok : List Char → List Char) (budget : Option Nat) (minTok : Nat) :
    List (List Char) → Nat → Nat → Nat → List (List Char) → WriteResult
  | [], _idx, last, total, acc => ⟨acc.reverse, total, last, []⟩
  | text :: rest, idx, _last, total, acc =>
    let tokenized := tok (stripChars text)
    let ntt := accountedTokens tok text
    if ntt < minTok then
      writeLoop tok budget minTok rest (idx + 1) idx total acc
    else
      let total' := total + ntt + 1
      match budget with
      | some b =>
        if b < total' then ⟨(tokenized :: acc).reverse, total', idx, rest⟩
        else writeLoop tok budget minTok rest (idx + 1) idx total' (tokenized :: acc)
      | none => writeLoop tok budget minTok rest (idx + 1) idx total' (tokenized :: acc)

def write_tweettext (tok : List Char → List Char) (budget : Option Nat) (minTok : Nat)
    (texts : List (List Char)) : WriteResult :=
  writeLoop tok budget minTok texts 0 0 0 []

/-! ## The driver (`main`) -/

/-- The nine output files (3 tiers x 3 splits), each as its list of lines. -/
structure CorpusFiles where
  sml_train : List (List Char)
  sml_valid : List (List Char)
  sml_test : List (List Char)
  lrg_train : List (List Char)
  lrg_valid : List (List Char)
  lrg_test : List (List Char)
  all_train : List (List Char)
  all_valid : List (List Char)
  all_test : List (List Char)
deriving DecidableEq, Repr

/-- `main`: three small-tier passes over the shared sequence with budgets
2,000,000 / 200,000 / 200,000, each small file copied to the large and all
tiers; then an appending pass with budget 98,000,000 into the large train
file; a copy of that file to the all train file; and a final unbounded
appending pass into the all train file.  The second component is the part of
the source sequence left unconsumed at the end. -/
def main_model (tok : List Char → List Char) (minTok : Nat) (texts : List (List Char)) :
    CorpusFiles × List (List Char) :=
  let r1 := write_tweettext tok (some 2000000) minTok texts
  let r2 := write_tweettext tok (some 200000) minTok r1.remaining
  let r3 := write_tweettext tok (some 200000) minTok r2.remaining
  let r4 := write_tweettext tok (some 98000000) minTok r3.remaining
  let lrgTrain := r1.written ++ r4.written
  let r5 := write_tweettext tok none minTok r4.remaining
  let allTrain := lrgTrain ++ r5.written
  (⟨r1.written, r2.written, r3.written,
    lrgTrain, r2.written, r3.written,
    allTrain, r2.written, r3.written⟩, r5.remaining)

/-! ## Concrete inputs for the scenario claims -/

/-- Five cleaned texts whose token-accounted lengths under the identity
tokenizer are 12, 5, 20, 8 and 15. -/
def scenarioLines : List (List Char) :=
  ["a a a a a a a a a a a".toList,
   "b b b b".toList,
   "c c c c c c c c c c c c c c c c c c c".toList,
   "d d d d d d d".toList,
   "e e e e e e e e e e e e e e".toList]

/-- A single cleaned text with 10 tokens (accounted count 11). -/
def oneAcceptedLine : List Char := "a a a a a a a a a a".toList

/-- Decidable check that `pat` occurs as a contiguous segment of `l`. -/
def hasSeg (pat : List Char) : List Char → Bool
  | [] => decide (pat = [])
  | c :: rest => (dropLit pat (c :: rest)).isSome || hasSeg pat rest

/-! # Theorems

First the infrastructure lemmas about the scanners and the writer loop, then
one theorem per claim (with its witness or counterexample where required).
-/

theorem scanSubAux_congr (f : List Char → Option (Nat × List Char)) :
    ∀ (n₁ n₂ : Nat) (l : List Char), l.length ≤ n₁ → l.length ≤ n₂ →
      scanSubAux f n₁ l = scanSubAux f n₂ l := by
  intro n₁
  induction n₁ with
  | zero =>
    intro n₂ l h1 _
    have hl : l = [] := List.eq_nil_of_length_eq_zero (Nat.le_zero.mp h1)
    subst hl
    cases n₂ <;> rfl
  | succ n ih =>
    intro n₂ l h1 h2
    cases l with
    | nil => cases n₂ <;> rfl
    | cons c rest =>
      cases n₂ with
      | zero => simp at h2
      | succ m =>
        simp only [scanSubAux]
        cases hf : f (c :: rest) with
        | none =>
          have hr : rest.length ≤ n := Nat.le_of_succ_le_succ h1
          have hr' : rest.length ≤ m := Nat.le_of_succ_le_succ h2
          simp [ih m rest hr hr']
        | some p =>
          obtain ⟨k, repl⟩ := p
          have hd : (rest.drop k).length ≤ rest.length := by
            rw [List.length_drop]; omega
          have hr : (rest.drop k).length ≤ n :=
            le_trans hd (Nat.le_of_succ_le_succ h1)
          have hr' : (rest.drop k).length ≤ m :=
            le_trans hd (Nat.le_of_succ_le_succ h2)
          simp [ih m (rest.drop k) hr hr']

theorem scanSub_cons_none (f : List Char → Option (Nat × List Char)) (c : Char)
    (rest : List Char) (hf : f (c :: rest) = none) :
    scanSub f (c :: rest) = c :: scanSub f rest := by
  show scanSubAux f (rest.length + 1) (c :: rest) = c :: scanSubAux f rest.length rest
  simp only [scanSubAux, hf]

theorem scanSub_cons_some (f : List Char → Option (Nat × List Char)) (c : Char)
    (rest : List Char) (n : Nat) (repl : List Char) (hf : f (c :: rest) = some (n, repl)) :
    scanSub f (c :: rest) = repl ++ scanSub f (rest.drop n) := by
  show scanSubAux f (rest.length + 1) (c :: rest) = repl ++ scanSubAux f (rest.drop n).length (rest.drop n)
  simp only [scanSubAux, hf]
  congr 1
  refine scanSubAux_congr f _ _ _ ?_ le_rfl
  rw [List.length_drop]; omega

theorem dropLit_eq : ∀ (ps l r : List Char), dropLit ps l = some r → l = ps ++ r := by
  intro ps
  induction ps with
  | nil => intro l r h; simp only [dropLit, Option.some.injEq] at h; simp [h]
  | cons p ps ih =>
    intro l r h
    cases l with
    | nil => simp [dropLit] at h
    | cons c cs =>
      simp only [dropLit] at h
      by_cases hc : c = p
      · rw [if_pos hc] at h
        subst hc
        simp [ih cs r h]
      · rw [if_neg hc] at h
        exact absurd h (by simp)

/-- Generic identity lemma: a pass leaves a string unchanged when its matcher
rejects every suffix all of whose characters avoid the trigger class. -/
theorem scanSub_id_of (f : List Char → Option (Nat × List Char)) (P : Char → Prop)
    (hf : ∀ c rest, (∀ x ∈ c :: rest, ¬ P x) → f (c :: rest) = none) :
    ∀ l, (∀ x ∈ l, ¬ P x) → scanSub f l = l := by
  intro l
  induction l with
  | nil => intro _; rfl
  | cons c rest ih =>
    intro h
    rw [scanSub_cons_none f c rest (hf c rest h)]
    rw [ih (fun x hx => h x (List.mem_cons_of_mem c hx))]

theorem mention_sub_id (l : List Char) (h : '@' ∉ l) : mention_sub l = l := by
  refine scanSub_id_of mentionTry (fun c => c = '@') ?_ l ?_
  · intro c rest hx
    have hc : ¬ c = '@' := hx c (List.mem_cons_self c rest)
    simp [mentionTry, hc]
  · intro x hx he
    exact h (he ▸ hx)

theorem hashtag_sub_id (l : List Char) (h : '#' ∉ l) : hashtag_sub l = l := by
  refine scanSub_id_of hashtagTry (fun c => c = '#') ?_ l ?_
  · intro c rest hx
    have hc : ¬ c = '#' := hx c (List.mem_cons_self c rest)
    simp [hashtagTry, hc]
  · intro x hx he
    exact h (he ▸ hx)

theorem dotTry_none (l : List Char) (h : ∀ x ∈ l, ¬ x = '.') : dotTry l = none := by
  cases hd : l.drop (l.takeWhile (fun d => d = ' ')).length with
  | nil => simp [dotTry, hd]
  | cons c rest =>
    have hc : c ∈ l := List.drop_subset _ l (hd ▸ List.mem_cons_self c rest)
    simp [dotTry, hd, h c hc]

theorem dot_sub_id (l : List Char) (h : '.' ∉ l) : dot_sub l = l := by
  refine scanSub_id_of dotTry (fun c => c = '.') ?_ l ?_
  · intro c rest hx
    exact dotTry_none (c :: rest) hx
  · intro x hx he
    exact h (he ▸ hx)

theorem urlBody_none (r : List Char) (h : '/' ∉ r) : urlBody r = none := by
  unfold urlBody
  cases hd : dropLit [':', '/', '/'] r with
  | none => rfl
  | some r2 =>
    exfalso
    have := dropLit_eq _ _ _ hd
    exact h (by simp [this])

theorem urlTry_none (l : List Char) (h : ∀ x ∈ l, ¬ x = '/') : urlTry l = none := by
  cases hd : dropLit ['h', 't', 't', 'p'] l with
  | none => simp [urlTry, hd]
  | some rest =>
    have hl : l = ['h', 't', 't', 'p'] ++ rest := dropLit_eq _ _ _ hd
    have hrest : '/' ∉ rest := by
      intro hx
      exact h '/' (hl ▸ List.mem_append_right _ hx) rfl
    have hbody : urlBody rest = none := urlBody_none rest hrest
    cases rest with
    | nil => simp [urlTry, hd, hbody]
    | cons c rest2 =>
      have hrest2 : '/' ∉ rest2 := fun hx => hrest (List.mem_cons_of_mem c hx)
      have hbody2 : urlBody rest2 = none := urlBody_none rest2 hrest2
      by_cases hc : c = 's'
      · subst hc
        simp [urlTry, hd, hbody, hbody2]
      · simp [urlTry, hd, hc, hbody, hbody2]

theorem url_sub_id (l : List Char) (h : '/' ∉ l) : url_sub l = l := by
  refine scanSub_id_of urlTry (fun c => c = '/') ?_ l ?_
  · intro c rest hx
    exact urlTry_none (c :: rest) hx
  · intro x hx he
    exact h (he ▸ hx)

theorem picTry_none (l : List Char) (h : '/' ∉ l) : picTry l = none := by
  unfold picTry
  cases hd : dropLit picLit l with
  | none => rfl
  | some r =>
    exfalso
    have hl : l = picLit ++ r := dropLit_eq _ _ _ hd
    exact h (by simp [hl, picLit])

theorem pic_sub_id (l : List Char) (h : '/' ∉ l) : pic_sub l = l := by
  refine scanSub_id_of picTry (fun c => c = '/') ?_ l ?_
  · intro c rest hx
    refine picTry_none (c :: rest) ?_
    intro hmem
    exact hx '/' hmem rfl
  · intro x hx he
    exact h (he ▸ hx)

theorem rtStrip_id (l : List Char) (h : l.take 3 ≠ ['R', 'T', ' ']) : rtStrip l = l :=
  if_neg h

theorem dropWhile_eq_drop_len (p : Char → Bool) :
    ∀ l : List Char, l.dropWhile p = l.drop (l.takeWhile p).length := by
  intro l
  induction l with
  | nil => rfl
  | cons c rest ih =>
    by_cases hc : p c = true
    · simp [List.dropWhile_cons, List.takeWhile_cons, hc, ih]
    · simp [List.dropWhile_cons, List.takeWhile_cons, hc]

theorem dropWhile_head_not (p : Char → Bool) :
    ∀ (l : List Char) (c : Char) (r : List Char), l.dropWhile p = c :: r → p c = false := by
  intro l
  induction l with
  | nil => intro c r h; simp [List.dropWhile] at h
  | cons a rest ih =>
    intro c r h
    by_cases ha : p a = true
    · rw [List.dropWhile_cons, if_pos ha] at h
      exact ih c r h
    · rw [List.dropWhile_cons, if_neg ha] at h
      injection h with h1 _
      subst h1
      exact Bool.eq_false_iff.mpr ha

theorem dropWhile_eq_self (p : Char → Bool) (x : List Char) (h : x.takeWhile p = []) :
    x.dropWhile p = x := by
  cases x with
  | nil => rfl
  | cons d rr =>
    rw [List.takeWhile_cons] at h
    by_cases hd : p d = true
    · rw [if_pos hd] at h
      simp at h
    · rw [List.dropWhile_cons, if_neg hd]

theorem space_sub_cons_not (c : Char) (rest : List Char) (h : c.isWhitespace = false) :
    space_sub (c :: rest) = c :: space_sub rest := by
  have hf : spaceTry (c :: rest) = none := by simp [spaceTry, h]
  exact scanSub_cons_none _ _ _ hf

theorem space_sub_cons_ws (c : Char) (rest : List Char) (h : c.isWhitespace = true) :
    space_sub (c :: rest) = ' ' :: space_sub (rest.dropWhile Char.isWhitespace) := by
  have hf : spaceTry (c :: rest) = some ((rest.takeWhile Char.isWhitespace).length, [' ']) := by
    simp [spaceTry, h]
  unfold space_sub
  rw [scanSub_cons_some spaceTry c rest ((rest.takeWhile Char.isWhitespace).length) [' '] hf,
    ← dropWhile_eq_drop_len Char.isWhitespace rest]
  rfl

theorem space_sub_after_drop (l : List Char) :
    (space_sub (l.dropWhile Char.isWhitespace)).takeWhile Char.isWhitespace = [] := by
  cases hd : l.dropWhile Char.isWhitespace with
  | nil => simp [space_sub, scanSub, scanSubAux]
  | cons d r =>
    have hdd : d.isWhitespace = false := dropWhile_head_not _ l d r hd
    rw [space_sub_cons_not d r hdd, List.takeWhile_cons, if_neg (by simp [hdd])]

theorem space_sub_idem_aux : ∀ (n : Nat) (l : List Char), l.length ≤ n →
    space_sub (space_sub l) = space_sub l := by
  intro n
  induction n with
  | zero =>
    intro l h
    have hl : l = [] := List.eq_nil_of_length_eq_zero (Nat.le_zero.mp h)
    subst hl; rfl
  | succ n ih =>
    intro l h
    cases l with
    | nil => rfl
    | cons c rest =>
      by_cases hc : c.isWhitespace = true
      · rw [space_sub_cons_ws c rest hc]
        rw [space_sub_cons_ws ' ' _ (by decide)]
        have h1 : (space_sub (rest.dropWhile Char.isWhitespace)).dropWhile Char.isWhitespace
            = space_sub (rest.dropWhile Char.isWhitespace) :=
          dropWhile_eq_self _ _ (space_sub_after_drop rest)
        rw [h1]
        have h2 : (rest.dropWhile Char.isWhitespace).length ≤ rest.length := by
          rw [dropWhile_eq_drop_len Char.isWhitespace rest, List.length_drop]
          omega
        have hlen : (rest.dropWhile Char.isWhitespace).length ≤ n := by
          simp only [List.length_cons] at h
          omega
        rw [ih _ hlen]
      · have hc' : c.isWhitespace = false := by simpa using hc
        rw [space_sub_cons_not c rest hc']
        rw [space_sub_cons_not c _ hc']
        have hlen : rest.length ≤ n := by
          simp only [List.length_cons] at h
          omega
        rw [ih rest hlen]

theorem space_sub_idem (l : List Char) : space_sub (space_sub l) = space_sub l :=
  space_sub_idem_aux l.length l le_rfl

/-- The capped greedy `\w{1,15}` run stops exactly at the run `h` when `h`
fills the cap (`h.length = n`) or the next character is not in the class. -/
theorem takeWhileCap_run (p : Char → Bool) :
    ∀ (h : List Char) (X : List Char) (n : Nat), h.length ≤ n →
      (∀ c ∈ h, p c = true) →
      (h.length = n ∨ (∀ d rest, X = d :: rest → p d = false)) →
      takeWhileCap p n (h ++ X) = h := by
  intro h
  induction h with
  | nil =>
    intro X n _ _ hmax
    cases hmax with
    | inl h0 =>
      have hz : n = 0 := h0.symm
      subst hz
      cases X <;> rfl
    | inr hX =>
      cases n with
      | zero => cases X <;> rfl
      | succ n' =>
        cases X with
        | nil => rfl
        | cons d r => simp [takeWhileCap, hX d r rfl]
  | cons a h' ih =>
    intro X n hn hall hmax
    cases n with
    | zero => simp at hn
    | succ n' =>
      have ha : p a = true := hall a (List.mem_cons_self a h')
      have hn' : h'.length ≤ n' := by simp at hn; omega
      have hmax' : h'.length = n' ∨ (∀ d rest, X = d :: rest → p d = false) := by
        cases hmax with
        | inl he =>
          left
          simp at he
          omega
        | inr hX => right; exact hX
      simp only [List.cons_append, takeWhileCap, ha, if_true]
      exact congrArg (a :: ·) (ih X n' hn' (fun c hc => hall c (List.mem_cons_of_mem a hc)) hmax')

theorem drop_len_append : ∀ (h post : List Char), (h ++ post).drop h.length = post := by
  intro h post
  induction h with
  | nil => rfl
  | cons a h' ih => simp [ih]

theorem drop_len_add (a : List Char) : ∀ (rest : List Char) (n : Nat),
    (a ++ rest).drop (a.length + n) = rest.drop n := by
  induction a with
  | nil => intro rest n; simp
  | cons x a' ih =>
    intro rest n
    simp [Nat.succ_add, ih rest n]

/-- A maximal run for a character class: `takeWhile` over `run ++ rest`
returns exactly `run` when every character of `run` is in the class and the
head of `rest` (if any) is not. -/
theorem takeWhile_run_append (p : Char → Bool) :
    ∀ (run rest : List Char), (∀ c ∈ run, p c = true) →
      (∀ d r', rest = d :: r' → p d = false) →
      (run ++ rest).takeWhile p = run := by
  intro run
  induction run with
  | nil =>
    intro rest _ hrest
    cases rest with
    | nil => rfl
    | cons d r => simp [List.takeWhile_cons, hrest d r rfl]
  | cons a run' ih =>
    intro rest hall hrest
    have ha : p a = true := hall a (List.mem_cons_self a run')
    simp only [List.cons_append, List.takeWhile_cons, ha, if_true]
    exact congrArg (a :: ·) (ih rest (fun c hc => hall c (List.mem_cons_of_mem a hc)) hrest)

/-- The mention matcher on a full marker `@`-handle-spaces-colons: it captures
the handle `h` (greedy up to 15, `hmaxw` making `h` maximal), the space run
`sp` and the colon run `co` (both maximal), and replaces the whole match by
`clean_mention h`. -/
theorem mentionTry_at (h sp co post : List Char)
    (hw : ∀ c ∈ h, isWordChar c = true) (h1 : h ≠ []) (h15 : h.length ≤ 15)
    (hsp : ∀ c ∈ sp, c = ' ') (hco : ∀ c ∈ co, c = ':')
    (hmaxw : h.length = 15 ∨ (∀ d r, sp ++ (co ++ post) = d :: r → isWordChar d = false))
    (hmaxs : ∀ d r, co ++ post = d :: r → d ≠ ' ')
    (hmaxc : ∀ d r, post = d :: r → d ≠ ':') :
    mentionTry ('@' :: (h ++ (sp ++ (co ++ post)))) =
      some (h.length + sp.length + co.length, clean_mention h) := by
  have hcap : takeWhileCap isWordChar 15 (h ++ (sp ++ (co ++ post))) = h :=
    takeWhileCap_run isWordChar h (sp ++ (co ++ post)) 15 h15 hw hmaxw
  have hdrop1 : (h ++ (sp ++ (co ++ post))).drop h.length = sp ++ (co ++ post) :=
    drop_len_append h (sp ++ (co ++ post))
  have hspEq : (sp ++ (co ++ post)).takeWhile (fun d => d = ' ') = sp :=
    takeWhile_run_append _ sp (co ++ post) (fun c hc => by simp [hsp c hc])
      (fun d r' hdr => by simp [hmaxs d r' hdr])
  have hdrop2 : (sp ++ (co ++ post)).drop sp.length = co ++ post :=
    drop_len_append sp (co ++ post)
  have hcoEq : (co ++ post).takeWhile (fun d => d = ':') = co :=
    takeWhile_run_append _ co post (fun c hc => by simp [hco c hc])
      (fun d r' hdr => by simp [hmaxc d r' hdr])
  simp [mentionTry, hcap, h1, hdrop1, hspEq, hdrop2, hcoEq]

theorem writeLoop_nil (tok : List Char → List Char) (b : Option Nat) (m idx last total : Nat)
    (acc : List (List Char)) :
    writeLoop tok b m [] idx last total acc = ⟨acc.reverse, total, last, []⟩ := rfl

theorem writeLoop_cons_reject (tok : List Char → List Char) (b : Option Nat) (m : Nat)
    (text : List Char) (rest : List (List Char)) (idx last total : Nat)
    (acc : List (List Char)) (h : accountedTokens tok text < m) :
    writeLoop tok b m (text :: rest) idx last total acc =
      writeLoop tok b m rest (idx + 1) idx total acc := by
  simp [writeLoop, h]

theorem writeLoop_cons_unbounded (tok : List Char → List Char) (m : Nat)
    (text : List Char) (rest : List (List Char)) (idx last total : Nat)
    (acc : List (List Char)) (h : ¬ accountedTokens tok text < m) :
    writeLoop tok none m (text :: rest) idx last total acc =
      writeLoop tok none m rest (idx + 1) idx (total + accountedTokens tok text + 1)
        (tok (stripChars text) :: acc) := by
  simp [writeLoop, h]

theorem writeLoop_cons_break (tok : List Char → List Char) (bv m : Nat)
    (text : List Char) (rest : List (List Char)) (idx last total : Nat)
    (acc : List (List Char)) (h : ¬ accountedTokens tok text < m)
    (hb : bv < total + accountedTokens tok text + 1) :
    writeLoop tok (some bv) m (text :: rest) idx last total acc =
      ⟨(tok (stripChars text) :: acc).reverse, total + accountedTokens tok text + 1, idx, rest⟩ := by
  simp [writeLoop, h, hb]

theorem writeLoop_cons_cont (tok : List Char → List Char) (bv m : Nat)
    (text : List Char) (rest : List (List Char)) (idx last total : Nat)
    (acc : List (List Char)) (h : ¬ accountedTokens tok text < m)
    (hb : ¬ bv < total + accountedTokens tok text + 1) :
    writeLoop tok (some bv) m (text :: rest) idx last total acc =
      writeLoop tok (some bv) m rest (idx + 1) idx (total + accountedTokens tok text + 1)
        (tok (stripChars text) :: acc) := by
  simp [writeLoop, h, hb]

theorem writeLoop_none_rem (tok : List Char → List Char) (m : Nat) :
    ∀ (texts : List (List Char)) (idx last total : Nat) (acc : List (List Char)),
      (writeLoop tok none m texts idx last total acc).remaining = [] := by
  intro texts
  induction texts with
  | nil => intro idx last total acc; rfl
  | cons text rest ih =>
    intro idx last total acc
    by_cases h : accountedTokens tok text < m
    · rw [writeLoop_cons_reject tok none m text rest idx last total acc h]
      exact ih _ _ _ _
    · rw [writeLoop_cons_unbounded tok m text rest idx last total acc h]
      exact ih _ _ _ _

theorem writeLoop_budget_aux (tok : List Char → List Char) (bv m : Nat) :
    ∀ (texts : List (List Char)) (idx last total : Nat) (acc : List (List Char)),
      (writeLoop tok (some bv) m texts idx last total acc).remaining ≠ [] →
        bv < (writeLoop tok (some bv) m texts idx last total acc).total ∧
        (writeLoop tok (some bv) m texts idx last total acc).written ≠ [] := by
  intro texts
  induction texts with
  | nil => intro idx last total acc h; exact absurd rfl h
  | cons text rest ih =>
    intro idx last total acc h
    by_cases hr : accountedTokens tok text < m
    · rw [writeLoop_cons_reject tok (some bv) m text rest idx last total acc hr] at h ⊢
      exact ih _ _ _ _ h
    · by_cases hb : bv < total + accountedTokens tok text + 1
      · rw [writeLoop_cons_break tok bv m text rest idx last total acc hr hb]
        exact ⟨hb, by simp⟩
      · rw [writeLoop_cons_cont tok bv m text rest idx last total acc hr hb] at h ⊢
        exact ih _ _ _ _ h

theorem writeLoop_idx_inv (tok : List Char → List Char) (b : Option Nat) (m : Nat) :
    ∀ (texts : List (List Char)) (idx last idx' last' total : Nat) (acc : List (List Char)),
      (writeLoop tok b m texts idx last total acc).written =
        (writeLoop tok b m texts idx' last' total acc).written ∧
      (writeLoop tok b m texts idx last total acc).total =
        (writeLoop tok b m texts idx' last' total acc).total ∧
      (writeLoop tok b m texts idx last total acc).remaining =
        (writeLoop tok b m texts idx' last' total acc).remaining := by
  intro texts
  induction texts with
  | nil => intro idx last idx' last' total acc; exact ⟨rfl, rfl, rfl⟩
  | cons text rest ih =>
    intro idx last idx' last' total acc
    by_cases hr : accountedTokens tok text < m
    · rw [writeLoop_cons_reject tok b m text rest idx last total acc hr,
        writeLoop_cons_reject tok b m text rest idx' last' total acc hr]
      exact ih _ _ _ _ _ _
    · cases b with
      | none =>
        rw [writeLoop_cons_unbounded tok m text rest idx last total acc hr,
          writeLoop_cons_unbounded tok m text rest idx' last' total acc hr]
        exact ih _ _ _ _ _ _
      | some bv =>
        by_cases hb : bv < total + accountedTokens tok text + 1
        · rw [writeLoop_cons_break tok bv m text rest idx last total acc hr hb,
            writeLoop_cons_break tok bv m text rest idx' last' total acc hr hb]
          exact ⟨rfl, rfl, rfl⟩
        · rw [writeLoop_cons_cont tok bv m text rest idx last total acc hr hb,
            writeLoop_cons_cont tok bv m text rest idx' last' total acc hr hb]
          exact ih _ _ _ _ _ _

theorem writeLoop_spec (tok : List Char → List Char) (b : Option Nat) (m : Nat) :
    ∀ (texts : List (List Char)) (idx total : Nat) (acc : List (List Char)),
      ∃ consumed : List (List Char),
        texts = consumed ++ (writeLoop tok b m texts idx (idx - 1) total acc).remaining ∧
        (writeLoop tok b m texts idx (idx - 1) total acc).total =
          total + ((consumed.filter (acceptsLine tok m)).map
            (fun t => accountedTokens tok t + 1)).sum ∧
        (writeLoop tok b m texts idx (idx - 1) total acc).written =
          acc.reverse ++ (consumed.filter (acceptsLine tok m)).map (fun t => tok (stripChars t)) ∧
        (writeLoop tok b m texts idx (idx - 1) total acc).lastIndex = idx + consumed.length - 1 := by
  intro texts
  induction texts with
  | nil =>
    intro idx total acc
    exact ⟨[], by simp [writeLoop_nil], by simp [writeLoop_nil], by simp [writeLoop_nil],
      by simp [writeLoop_nil]⟩
  | cons text rest ih =>
    intro idx total acc
    by_cases hr : accountedTokens tok text < m
    · have hacc : acceptsLine tok m text = false := by
        simp only [acceptsLine, decide_eq_false_iff_not]
        omega
      have key := ih (idx + 1) total acc
      rw [Nat.add_sub_cancel] at key
      obtain ⟨c', hc1, hc2, hc3, hc4⟩ := key
      refine ⟨text :: c', ?_, ?_, ?_, ?_⟩ <;>
        rw [writeLoop_cons_reject tok b m text rest idx (idx - 1) total acc hr]
      · rw [List.cons_append]
        exact congrArg (text :: ·) hc1
      · rw [hc2]
        simp [List.filter_cons, hacc]
      · rw [hc3]
        simp [List.filter_cons, hacc]
      · rw [hc4]
        simp only [List.length_cons]
        omega
    · have hacc : acceptsLine tok m text = true := by
        simp only [acceptsLine, decide_eq_true_eq]
        omega
      cases b with
      | none =>
        have key := ih (idx + 1) (total + accountedTokens tok text + 1)
          (tok (stripChars text) :: acc)
        rw [Nat.add_sub_cancel] at key
        obtain ⟨c', hc1, hc2, hc3, hc4⟩ := key
        refine ⟨text :: c', ?_, ?_, ?_, ?_⟩ <;>
          rw [writeLoop_cons_unbounded tok m text rest idx (idx - 1) total acc hr]
        · rw [List.cons_append]
          exact congrArg (text :: ·) hc1
        · rw [hc2]
          simp only [List.filter_cons, hacc, if_true, List.map_cons, List.sum_cons]
          omega
        · rw [hc3]
          simp [List.filter_cons, hacc, List.reverse_cons, List.append_assoc]
        · rw [hc4]
          simp only [List.length_cons]
          omega
      | some bv =>
        by_cases hb : bv < total + accountedTokens tok text + 1
        · refine ⟨[text], ?_, ?_, ?_, ?_⟩ <;>
            rw [writeLoop_cons_break tok bv m text rest idx (idx - 1) total acc hr hb]
          · rfl
          · simp only [List.filter_cons, hacc, if_true, List.filter_nil, List.map_cons,
              List.map_nil, List.sum_cons, List.sum_nil]
            omega
          · simp [List.filter_cons, hacc, List.reverse_cons]
          · simp
        · have key := ih (idx + 1) (total + accountedTokens tok text + 1)
            (tok (stripChars text) :: acc)
          rw [Nat.add_sub_cancel] at key
          obtain ⟨c', hc1, hc2, hc3, hc4⟩ := key
          refine ⟨text :: c', ?_, ?_, ?_, ?_⟩ <;>
            rw [writeLoop_cons_cont tok bv m text rest idx (idx - 1) total acc hr hb]
          · rw [List.cons_append]
            exact congrArg (text :: ·) hc1
          · rw [hc2]
            simp only [List.filter_cons, hacc, if_true, List.map_cons, List.sum_cons]
            omega
          · rw [hc3]
            simp [List.filter_cons, hacc, List.reverse_cons, List.append_assoc]
          · rw [hc4]
            simp only [List.length_cons]
            omega

/-- C1: for every bounded write pass, whenever the pass stops because the
budget was exceeded (the source is not exhausted, i.e. some suffix of the
source was left unconsumed), the overshooting record has been written (the
written list is non-empty, since the check is post-write) and the cumulative
written-token total is strictly greater than the budget. -/
theorem budget_overshoot_written (tok : List Char → List Char) (bv m : Nat)
    (texts : List (List Char))
    (h : (write_tweettext tok (some bv) m texts).remaining ≠ []) :
    bv < (write_tweettext tok (some bv) m texts).total ∧
    (write_tweettext tok (some bv) m texts).written ≠ [] :=
  writeLoop_budget_aux tok bv m texts 0 0 0 [] h

/-- Witness for C1 at a concrete input: budget 4, threshold 2, a first record
of accounted count 4 (written, pushing the total to 5 > 4) and a second
record left unconsumed. -/
theorem budget_overshoot_written_w :
    4 < (write_tweettext (fun l => l) (some 4) 2 ["a a a".toList, "b".toList]).total ∧
    (write_tweettext (fun l => l) (some 4) 2 ["a a a".toList, "b".toList]).written ≠ [] :=
  budget_overshoot_written (fun l => l) 4 2 ["a a a".toList, "b".toList] (by decide)

/-- C2: every write pass consumes a prefix of the source; rejected records in
it contribute nothing, and every accepted record contributes exactly its
accounted token count plus one — the true non-empty-token count of the
written line plus two (once `+1` in the gate and once more in the caller) —
to the running total, while its tokenized line is written. -/
theorem write_total_sum (tok : List Char → List Char) (b : Option Nat) (m : Nat)
    (texts : List (List Char)) :
    ∃ consumed : List (List Char),
      texts = consumed ++ (write_tweettext tok b m texts).remaining ∧
      (write_tweettext tok b m texts).total =
        ((consumed.filter (acceptsLine tok m)).map (fun t => numTokens tok t + 2)).sum ∧
      (write_tweettext tok b m texts).written =
        (consumed.filter (acceptsLine tok m)).map (fun t => tok (stripChars t)) := by
  obtain ⟨c, h1, h2, h3, _⟩ := writeLoop_spec tok b m texts 0 0 []
  have h1' : texts = c ++ (write_tweettext tok b m texts).remaining := h1
  have h2' : (write_tweettext tok b m texts).total =
      0 + ((c.filter (acceptsLine tok m)).map (fun t => accountedTokens tok t + 1)).sum := h2
  have h3' : (write_tweettext tok b m texts).written =
      ([] : List (List Char)).reverse ++
        (c.filter (acceptsLine tok m)).map (fun t => tok (stripChars t)) := h3
  refine ⟨c, h1', ?_, ?_⟩
  · rw [h2', Nat.zero_add]
    rfl
  · rw [h3']
    simp

/-- C3 counterexample: with the five records of accounted lengths
[12, 5, 20, 8, 15], threshold 10 and budget 30, the pass does NOT write 3
records with a cumulative total of 47 (each acceptance adds its accounted
length plus one, so the total reaches 13 and then 34 > 30 after only the
second acceptance). -/
theorem five_records_claim_false :
    scenarioLines.map (accountedTokens (fun l => l)) = [12, 5, 20, 8, 15] ∧
    ¬ ((write_tweettext (fun l => l) (some 30) 10 scenarioLines).written.length = 3 ∧
        (write_tweettext (fun l => l) (some 30) 10 scenarioLines).total = 47) := by
  decide

/-- C3 amended: with those records, threshold 10 and budget 30, the pass
accepts the records of accounted lengths 12 and 20 in original order (5 is
rejected), the cumulative total after the second acceptance is
13 + 21 = 34 > 30, the pass stops after exactly 2 records written, the
summary index is 2, and the records of lengths 8 and 15 are left unconsumed. -/
theorem five_records_actual :
    (write_tweettext (fun l => l) (some 30) 10 scenarioLines).written =
      ["a a a a a a a a a a a".toList, "c c c c c c c c c c c c c c c c c c c".toList] ∧
    (write_tweettext (fun l => l) (some 30) 10 scenarioLines).total = 34 ∧
    (write_tweettext (fun l => l) (some 30) 10 scenarioLines).lastIndex = 2 ∧
    (write_tweettext (fun l => l) (some 30) 10 scenarioLines).remaining =
      ["d d d d d d d".toList, "e e e e e e e e e e e e e e".toList] := by
  decide

/-- C4: the accounted value of the gate is the number of non-empty tokens
plus 1, and a record whose accounted value is strictly below the threshold
is rejected: nothing is written, the running total is unchanged, and the
rest of the pass proceeds exactly as if the record were absent. -/
theorem reject_below_min_no_effect (tok : List Char → List Char) (b : Option Nat) (m : Nat)
    (t : List Char) (rest : List (List Char)) (h : accountedTokens tok t < m) :
    accountedTokens tok t = numTokens tok t + 1 ∧
    (write_tweettext tok b m (t :: rest)).written = (write_tweettext tok b m rest).written ∧
    (write_tweettext tok b m (t :: rest)).total = (write_tweettext tok b m rest).total ∧
    (write_tweettext tok b m (t :: rest)).remaining = (write_tweettext tok b m rest).remaining := by
  refine ⟨rfl, ?_⟩
  have hstep : write_tweettext tok b m (t :: rest) = writeLoop tok b m rest 1 0 0 [] := by
    show writeLoop tok b m (t :: rest) 0 0 0 [] = _
    exact writeLoop_cons_reject tok b m t rest 0 0 0 [] h
  rw [hstep]
  exact writeLoop_idx_inv tok b m rest 1 0 0 0 0 []

/-- Witness for C4 at a concrete input: the single-token record "a" has
accounted count 2 < 10 and is skipped without any effect. -/
theorem reject_below_min_no_effect_w :
    accountedTokens (fun l => l) ("a".toList) = numTokens (fun l => l) ("a".toList) + 1 ∧
    (write_tweettext (fun l => l) none 10 ["a".toList]).written =
      (write_tweettext (fun l => l) none 10 ([] : List (List Char))).written ∧
    (write_tweettext (fun l => l) none 10 ["a".toList]).total =
      (write_tweettext (fun l => l) none 10 ([] : List (List Char))).total ∧
    (write_tweettext (fun l => l) none 10 ["a".toList]).remaining =
      (write_tweettext (fun l => l) none 10 ([] : List (List Char))).remaining :=
  reject_below_min_no_effect (fun l => l) none 10 ("a".toList) [] (by decide)

/-- C5: the extracted text of a record is chosen by the fixed precedence
rule — the reshared record's extended text if present, else the reshared
record's short text, else (when there is no reshare) the record's own
extended text, else its own short text — and exactly one of the four
sources is selected (the four cases below have mutually exclusive guards). -/
theorem get_text_precedence (tw : Tweet) :
    (∃ rt et, tw.retweeted_status = some rt ∧ rt.extended_tweet = some et ∧
      get_text_from_tweet tw = et.full_text) ∨
    (∃ rt, tw.retweeted_status = some rt ∧ rt.extended_tweet = none ∧
      get_text_from_tweet tw = rt.text) ∨
    (tw.retweeted_status = none ∧ ∃ et, tw.extended_tweet = some et ∧
      get_text_from_tweet tw = et.full_text) ∨
    (tw.retweeted_status = none ∧ tw.extended_tweet = none ∧
      get_text_from_tweet tw = tw.text) := by
  cases hrs : tw.retweeted_status with
  | some rt =>
    cases het : rt.extended_tweet with
    | some et =>
      left
      exact ⟨rt, et, rfl, het, by simp [get_text_from_tweet, hrs, het]⟩
    | none =>
      right; left
      exact ⟨rt, rfl, het, by simp [get_text_from_tweet, hrs, het]⟩
  | none =>
    cases het : tw.extended_tweet with
    | some et =>
      right; right; left
      exact ⟨rfl, et, rfl, by simp [get_text_from_tweet, hrs, het]⟩
    | none =>
      right; right; right
      exact ⟨rfl, rfl, by simp [get_text_from_tweet, hrs, het]⟩

/-- C6 counterexample: for the input "@user1 hi" (a mention marker with the
valid 6-character handle "user1"), the Normalizer's output is "user hi": the
digit of the handle is replaced by a space rather than retained, no
surrounding spaces are added, and the bare handle text "user1" does not
occur in the output at all. -/
theorem mention_handle_not_preserved :
    clean_line_mod ("@user1 hi".toList) = "user hi".toList ∧
    hasSeg ("user1".toList) ("user hi".toList) = false := by
  decide

/-- C6 amended: a mention marker — an `@` followed by a handle `h` of 1-15
word characters (maximal: either 15 long or followed by a non-word
character), then a maximal run `sp` of spaces, then a maximal run `co` of
colons, with no `@` in the surrounding text — is replaced, trailing spaces
and colons included, by `clean_mention h`: the handle text with every
non-alphabetic character (digit or underscore) turned into a space, with no
surrounding spaces added; the bare alphanumeric handle is NOT preserved
when it contains a digit or underscore. -/
theorem mention_marker_replacement (pre h sp co post : List Char)
    (hpre : '@' ∉ pre) (hpost : '@' ∉ post)
    (hw : ∀ c ∈ h, isWordChar c = true) (h1 : h ≠ []) (h15 : h.length ≤ 15)
    (hsp : ∀ c ∈ sp, c = ' ') (hco : ∀ c ∈ co, c = ':')
    (hmaxw : h.length = 15 ∨ (∀ d r, sp ++ (co ++ post) = d :: r → isWordChar d = false))
    (hmaxs : ∀ d r, co ++ post = d :: r → d ≠ ' ')
    (hmaxc : ∀ d r, post = d :: r → d ≠ ':') :
    mention_sub (pre ++ '@' :: (h ++ (sp ++ (co ++ post)))) =
      pre ++ (clean_mention h ++ post) := by
  revert hpre
  induction pre with
  | nil =>
    intro _
    simp only [List.nil_append]
    have hm := mentionTry_at h sp co post hw h1 h15 hsp hco hmaxw hmaxs hmaxc
    have hd3 : (h ++ (sp ++ (co ++ post))).drop (h.length + sp.length + co.length) = post := by
      rw [Nat.add_assoc, drop_len_add h (sp ++ (co ++ post)) (sp.length + co.length),
        drop_len_add sp (co ++ post) co.length]
      exact drop_len_append co post
    rw [show mention_sub ('@' :: (h ++ (sp ++ (co ++ post)))) =
        clean_mention h ++ scanSub mentionTry
          ((h ++ (sp ++ (co ++ post))).drop (h.length + sp.length + co.length)) from
      scanSub_cons_some mentionTry '@' (h ++ (sp ++ (co ++ post)))
        (h.length + sp.length + co.length) (clean_mention h) hm]
    rw [hd3]
    exact congrArg (clean_mention h ++ ·) (mention_sub_id post hpost)
  | cons c pre' ih =>
    intro hpre
    have hc : ¬ c = '@' := fun he => hpre (he ▸ List.mem_cons_self c pre')
    have hnone : mentionTry (c :: (pre' ++ '@' :: (h ++ (sp ++ (co ++ post))))) = none := by
      simp [mentionTry, hc]
    have hpre' : '@' ∉ pre' := fun hx => hpre (List.mem_cons_of_mem c hx)
    calc mention_sub ((c :: pre') ++ '@' :: (h ++ (sp ++ (co ++ post))))
        = c :: mention_sub (pre' ++ '@' :: (h ++ (sp ++ (co ++ post)))) := by
          rw [List.cons_append]
          exact scanSub_cons_none mentionTry c _ hnone
      _ = c :: (pre' ++ (clean_mention h ++ post)) := by rw [ih hpre']
      _ = (c :: pre') ++ (clean_mention h ++ post) := by rw [List.cons_append]

/-- Witness for C6 amended at a concrete input with both trailing syntax
runs present: in "hi @user1 : ok" the marker "@user1 :" (handle, one
trailing space, one trailing colon) is replaced by "user " — digit to
space, trailing space and colon absorbed — giving "hi user  ok". -/
theorem mention_marker_replacement_w :
    mention_sub (['h', 'i', ' '] ++ '@' ::
        (['u', 's', 'e', 'r', '1'] ++ ([' '] ++ ([':'] ++ [' ', 'o', 'k'])))) =
      ['h', 'i', ' '] ++ (clean_mention ['u', 's', 'e', 'r', '1'] ++ [' ', 'o', 'k']) :=
  mention_marker_replacement ['h', 'i', ' '] ['u', 's', 'e', 'r', '1'] [' '] [':'] [' ', 'o', 'k']
    (by decide) (by decide) (by decide) (by decide) (by decide) (by decide) (by decide)
    (Or.inr (fun d r hdr => by injection hdr with he1 he2; subst he1; decide))
    (fun d r hdr => by injection hdr with he1 he2; subst he1; decide)
    (fun d r hdr => by injection hdr with he1 he2; subst he1; decide)

/-- C7 counterexample: the Normalizer is not idempotent.  On "RT RT x" the
first pass strips only the first repost marker, producing "RT x", and a
second pass strips the second marker, producing "x". -/
theorem clean_line_mod_not_idempotent :
    clean_line_mod (clean_line_mod ("RT RT x".toList)) ≠ clean_line_mod ("RT RT x".toList) := by
  decide

/-- C7 amended: the Normalizer is idempotent on every input whose normalized
output does not begin with the repost marker "RT " and contains none of the
characters '/', '.', '@', '#' (each of which could trigger a further
rewrite on a second pass). -/
theorem clean_line_mod_idem_restricted (s : List Char)
    (h1 : (clean_line_mod s).take 3 ≠ ['R', 'T', ' '])
    (h2 : '/' ∉ clean_line_mod s) (h3 : '.' ∉ clean_line_mod s)
    (h4 : '@' ∉ clean_line_mod s) (h5 : '#' ∉ clean_line_mod s) :
    clean_line_mod (clean_line_mod s) = clean_line_mod s := by
  have hrt : rtStrip (clean_line_mod s) = clean_line_mod s := rtStrip_id _ h1
  have hurl : url_sub (clean_line_mod s) = clean_line_mod s := url_sub_id _ h2
  have hpic : pic_sub (clean_line_mod s) = clean_line_mod s := pic_sub_id _ h2
  have hdot : dot_sub (clean_line_mod s) = clean_line_mod s := dot_sub_id _ h3
  have hmen : mention_sub (clean_line_mod s) = clean_line_mod s := mention_sub_id _ h4
  have hhash : hashtag_sub (clean_line_mod s) = clean_line_mod s := hashtag_sub_id _ h5
  show space_sub (hashtag_sub (mention_sub (dot_sub (pic_sub (url_sub
    (rtStrip (clean_line_mod s))))))) = clean_line_mod s
  rw [hrt, hurl, hpic, hdot, hmen, hhash]
  show space_sub (space_sub (hashtag_sub (mention_sub (dot_sub (pic_sub
    (url_sub (rtStrip s))))))) = clean_line_mod s
  rw [space_sub_idem]
  rfl

/-- Witness for C7 amended at a concrete input whose normalized output
("hello world") satisfies all the side conditions. -/
theorem clean_line_mod_idem_restricted_w :
    clean_line_mod (clean_line_mod ("hello world".toList)) =
      clean_line_mod ("hello world".toList) :=
  clean_line_mod_idem_restricted ("hello world".toList)
    (by decide) (by decide) (by decide) (by decide) (by decide)

/-- C8: the driver writes the three small-tier splits from the shared
sequence with budgets 2,000,000 / 200,000 / 200,000 (each pass resuming
where the previous stopped), copies each small file into the large and all
tiers, appends a 98,000,000-budget pass to the large train file, copies that
file to the all train file, appends an unbounded pass to the all train file,
and the unbounded final pass exhausts the source (nothing is left
unconsumed). -/
theorem driver_tiers_and_exhaustion (tok : List Char → List Char) (m : Nat)
    (texts : List (List Char)) :
    (main_model tok m texts).2 = [] ∧
    (main_model tok m texts).1.sml_train = (write_tweettext tok (some 2000000) m texts).written ∧
    (main_model tok m texts).1.sml_valid = (write_tweettext tok (some 200000) m
      (write_tweettext tok (some 2000000) m texts).remaining).written ∧
    (main_model tok m texts).1.lrg_valid = (main_model tok m texts).1.sml_valid ∧
    (main_model tok m texts).1.all_valid = (main_model tok m texts).1.sml_valid ∧
    (main_model tok m texts).1.lrg_test = (main_model tok m texts).1.sml_test ∧
    (main_model tok m texts).1.all_test = (main_model tok m texts).1.sml_test ∧
    (∃ ext, (main_model tok m texts).1.lrg_train = (main_model tok m texts).1.sml_train ++ ext) ∧
    (∃ ext, (main_model tok m texts).1.all_train = (main_model tok m texts).1.lrg_train ++ ext) := by
  refine ⟨?_, rfl, rfl, rfl, rfl, rfl, rfl, ⟨_, rfl⟩, ⟨_, rfl⟩⟩
  exact writeLoop_none_rem tok m _ 0 0 0 []

/-- C9 counterexample: a pass over a single accepted record writes 1 record
but reports the enumerate index 0, so the reported record count does not
equal the number of records written. -/
theorem summary_index_ne_written_count :
    (write_tweettext (fun l => l) none 10 [oneAcceptedLine]).lastIndex = 0 ∧
    (write_tweettext (fun l => l) none 10 [oneAcceptedLine]).written.length = 1 ∧
    (write_tweettext (fun l => l) none 10 [oneAcceptedLine]).lastIndex ≠
      (write_tweettext (fun l => l) none 10 [oneAcceptedLine]).written.length := by
  decide

/-- C9 amended: the summary reports the running token total together with
the zero-based enumerate index of the last record drawn from the source —
the number of records consumed (rejected ones included) minus one, and 0
when nothing was consumed — not the number of records written. -/
theorem summary_index_consumed (tok : List Char → List Char) (b : Option Nat) (m : Nat)
    (texts : List (List Char)) :
    ∃ consumed : List (List Char),
      texts = consumed ++ (write_tweettext tok b m texts).remaining ∧
      (write_tweettext tok b m texts).lastIndex = consumed.length - 1 := by
  obtain ⟨c, hc1, _, _, hc4⟩ := writeLoop_spec tok b m texts 0 0 []
  exact ⟨c, hc1, by simpa using hc4⟩

/-- C10: the URL pattern's character class contains the space character, so
link removal is not limited to the link itself: on an input consisting of a
link followed by a space and further words of URL-safe characters, the whole
tail is deleted (here the result is the empty string). -/
theorem url_removal_eats_following_words :
    isUrlChar ' ' = true ∧
    clean_line_mod ("http://foo.bar baz qux".toList) = [] := by
  decide
